import Mathlib

/-!
Verification of the DeskReminder scheduling engine
(`src/python/reminder_app/reminder_app.py`).

Shallow embedding conventions:
* Unix timestamps (seconds) are modelled as `ℚ` (the Python code uses
  floating-point seconds; all arithmetic the claims touch is exact:
  `+ 1.0` second, `+ 60 * minutes` seconds, `- 1` second tolerance).
* `timedelta(minutes=m)` added to a time adds `60 * m` seconds.
* The external `croniter` library is modelled by an oracle
  `CronEnv.cronEval : String → ℚ → CronResult`; `CronResult.exn` stands
  for the evaluator raising an exception, which `compute_next_run`
  catches (logging it) and turns into `none`.
* The store `self.storage.reminders` is a dict keyed by `id`; its
  `.values()` iteration is modelled as a `List Reminder` in insertion
  order.
* The heap `self._heap` holds Python tuples `(next_ts, reminder_id, seq)`
  compared lexicographically by `heapq`; we model it as a list of
  `HeapEntry` and `heappop` as taking the minimum under that
  lexicographic order (`popMin`), which is `heappop`'s observable
  behaviour.
-/

namespace ReminderApp

/-- One entry of `Scheduler._heap`: the Python tuple
`(next_run_ts, reminder.id, seq)` pushed in `_fill_heap` / `run`. -/
structure HeapEntry where
  ts : ℚ
  rid : String
  seq : ℕ
  deriving DecidableEq, Repr

/-- The `Reminder` dataclass (only the fields the scheduler reads). -/
structure Reminder where
  id : String
  kind : String
  delay_minutes : Option Int := none
  run_at_ts : Option ℚ := none
  cron_expr : Option String := none
  enabled : Bool := true
  last_triggered_at : Option ℚ := none
  next_run_ts : Option ℚ := none
  deriving DecidableEq, Repr

/-- Result of one call into the external `croniter` machinery inside the
`try:` block of `compute_next_run`: either the UTC timestamp it returns,
or an exception escaping the block. -/
inductive CronResult where
  | ok (ts : ℚ)
  | exn
  deriving DecidableEq, Repr

/-- The environment of `compute_next_run` that is external to the
function itself: whether `croniter` imported (`HAVE_CRONITER`) and the
oracle for evaluating a cron expression at a base time. -/
structure CronEnv where
  haveCroniter : Bool
  cronEval : String → ℚ → CronResult

/-- `Scheduler.compute_next_run(r, base)`: next-occurrence timestamp of a
reminder, or `none`.  Direct translation of the Python body; `base` is
the `base_utc` timestamp. -/
def compute_next_run (env : CronEnv) (r : Reminder) (base : ℚ) : Option ℚ :=
  if !r.enabled then none
  else if r.kind = "delay" then
    -- `mins = r.delay_minutes or 0` (None ↦ 0, 0 ↦ 0, other ints pass)
    let mins := r.delay_minutes.getD 0
    if mins ≤ 0 then none
    else some (base + 60 * (mins : ℚ))
  else if r.kind = "datetime" then
    match r.run_at_ts with
    | none => none
    | some runAt =>
      match r.last_triggered_at with
      | some lt =>
        if runAt ≤ lt then none
        else if runAt ≤ base then some (base + 1) else some runAt
      | none =>
        if runAt ≤ base then some (base + 1) else some runAt
  else if r.kind = "cron" then
    -- `if not HAVE_CRONITER or not r.cron_expr: return None`
    if !env.haveCroniter then none
    else
      match r.cron_expr with
      | none => none
      | some e =>
        if e = "" then none
        else
          match env.cronEval e base with
          | CronResult.ok v => some v
          | CronResult.exn => none
  else none

/-- Whether the call `compute_next_run(r, base)` executes the
`logging.exception(...)` line: same control flow as `compute_next_run`,
returning `true` exactly on the `except` path of the cron branch. -/
def compute_next_run_logs (env : CronEnv) (r : Reminder) (base : ℚ) : Bool :=
  if !r.enabled then false
  else if r.kind = "delay" then false
  else if r.kind = "datetime" then false
  else if r.kind = "cron" then
    if !env.haveCroniter then false
    else
      match r.cron_expr with
      | none => false
      | some e =>
        if e = "" then false
        else
          match env.cronEval e base with
          | CronResult.ok _ => false
          | CronResult.exn => true
  else false

/-- Python tuple comparison `(ts, rid, seq) < (ts', rid', seq')` as used
by `heapq` on heap entries: lexicographic, `ts` then `rid` then `seq`. -/
def entryLtb (a b : HeapEntry) : Bool :=
  if a.ts < b.ts then true
  else if b.ts < a.ts then false
  else if a.rid < b.rid then true
  else if b.rid < a.rid then false
  else a.seq < b.seq

/-- Non-strict version of `entryLtb`. -/
def entryLeb (a b : HeapEntry) : Bool :=
  if a.ts < b.ts then true
  else if b.ts < a.ts then false
  else if a.rid < b.rid then true
  else if b.rid < a.rid then false
  else a.seq ≤ b.seq

/-- `heapq.heappop`'s observable behaviour on a heap whose entries are
totally ordered: it returns the least element.  (With the tuples pushed
by the scheduler, `heapq` maintains the min at the root under the tuple
order `entryLtb`.) -/
def popMin : List HeapEntry → Option HeapEntry
  | [] => none
  | e :: es => some (es.foldl (fun a b => if entryLeb a b then a else b) e)

/-- Mutable scheduler state owned by `Scheduler`: `self._heap` and
`self._seq`. -/
structure SchedState where
  heap : List HeapEntry
  seq : ℕ
  deriving DecidableEq, Repr

/-- The per-reminder body of the `for` loop of `Scheduler._fill_heap`:
compute `nxt`, store it into `r.next_run_ts`, and push
`(nxt, r.id, seq)` when `nxt is not None and nxt >= now_ts - 1`. -/
def fillStep (env : CronEnv) (now : ℚ) (r : Reminder) (s : SchedState) :
    Reminder × SchedState :=
  let nxt := compute_next_run env r now
  let r' := { r with next_run_ts := nxt }
  match nxt with
  | none => (r', s)
  | some v =>
    if now - 1 ≤ v then
      (r', { heap := s.heap ++ [⟨v, r.id, s.seq⟩], seq := s.seq + 1 })
    else (r', s)

/-- The `for r in self.storage.reminders.values()` loop of `_fill_heap`,
over the store in iteration order, threading the heap/seq state. -/
def fillLoop (env : CronEnv) (now : ℚ) :
    List Reminder → SchedState → List Reminder × SchedState
  | [], s => ([], s)
  | r :: rs, s =>
    let (r', s') := fillStep env now r s
    let (rs', s'') := fillLoop env now rs s'
    (r' :: rs', s'')

/-- `Scheduler._fill_heap`: clears the heap, resets `self._seq` to 0
(discarding the prior state `s`), then fills from the store with the
current time `now` as base.  Returns the updated store (each reminder's
`next_run_ts` overwritten) and the new heap state. -/
def fill_heap (env : CronEnv) (now : ℚ) (store : List Reminder)
    (_s : SchedState) : List Reminder × SchedState :=
  fillLoop env now store { heap := [], seq := 0 }

/-- `Scheduler.rebuild()`: sets `self._rebuild_event`.  The event is
modelled as the `Bool` flag it is (`threading.Event`). -/
def rebuild (_rebuildEvent : Bool) : Bool := true

/-- The firing branch of `Scheduler.run` after an enabled reminder `r`
has been popped and re-fetched from the store, at firing time `now`
(`now_ts`): sets `last_triggered_at`; for a cron reminder recomputes the
next occurrence, stores it into `next_run_ts` and pushes a fresh heap
entry when present; for any other kind clears `next_run_ts` and disables
the reminder.  Returns the updated reminder and heap state. -/
def fireStep (env : CronEnv) (now : ℚ) (r : Reminder) (s : SchedState) :
    Reminder × SchedState :=
  let r1 := { r with last_triggered_at := some now }
  if r1.kind = "cron" then
    let nxt := compute_next_run env r1 now
    let r2 := { r1 with next_run_ts := nxt }
    match nxt with
    | some v =>
      (r2, { heap := s.heap ++ [⟨v, r1.id, s.seq⟩], seq := s.seq + 1 })
    | none => (r2, s)
  else
    ({ r1 with next_run_ts := none, enabled := false }, s)

/-- A `CronEnv` with `croniter` unavailable, used for concrete stores
whose reminders are not cron-kind. -/
def envNoCron : CronEnv := ⟨false, fun _ _ => CronResult.exn⟩

/-- Concrete fixture: enabled datetime reminder with id `"b"`,
`run_at_ts = 100`. -/
def rmB : Reminder := { id := "b", kind := "datetime", run_at_ts := some 100 }

/-- Concrete fixture: enabled datetime reminder with id `"a"`,
`run_at_ts = 100`. -/
def rmA : Reminder := { id := "a", kind := "datetime", run_at_ts := some 100 }

/-- Concrete fixture: a disabled datetime reminder with id `"off"`. -/
def rmOff : Reminder :=
  { id := "off", kind := "datetime", run_at_ts := some 100, enabled := false }

/-! ### Helper lemmas -/

/-- A disabled reminder has no next occurrence (`if not r.enabled: return None`). -/
theorem compute_next_run_of_disabled (env : CronEnv) (r : Reminder) (base : ℚ)
    (h : r.enabled = false) : compute_next_run env r base = none := by
  unfold compute_next_run
  simp [h]

/-- `compute_next_run` never reads `next_run_ts`. -/
theorem compute_next_run_set_next (env : CronEnv) (r : Reminder) (x : Option ℚ)
    (base : ℚ) :
    compute_next_run env { r with next_run_ts := x } base =
      compute_next_run env r base := rfl

/-! ### Claims about `compute_next_run` -/

/-- C3: an enabled `datetime` reminder whose `run_at` is set and not
consumed, with `run_at ≤ base`, yields `base + 1` second, which is
strictly greater than `base`. -/
theorem datetime_past_clamps_to_base_plus_one (env : CronEnv) (r : Reminder)
    (base runAt : ℚ) (hen : r.enabled = true) (hk : r.kind = "datetime")
    (hra : r.run_at_ts = some runAt)
    (hnc : ∀ lt, r.last_triggered_at = some lt → lt < runAt)
    (hpast : runAt ≤ base) :
    compute_next_run env r base = some (base + 1) ∧
      ∀ v, compute_next_run env r base = some v → base < v := by
  have hmain : compute_next_run env r base = some (base + 1) := by
    unfold compute_next_run
    rw [hen, hk]
    simp only [Bool.not_true, Bool.false_eq_true, if_false]
    norm_num
    rw [hra]
    cases hlt : r.last_triggered_at with
    | none => simp [hpast]
    | some lt =>
      have := hnc lt hlt
      simp [hpast, not_le.mpr this]
  refine ⟨hmain, fun v hv => ?_⟩
  rw [hmain] at hv
  cases hv
  linarith

/-- Witness for `datetime_past_clamps_to_base_plus_one` at a concrete
reminder: `run_at = 50 ≤ base = 100` clamps to `101`. -/
theorem datetime_past_clamps_to_base_plus_one_witness :
    compute_next_run ⟨false, fun _ _ => CronResult.exn⟩
      { id := "x", kind := "datetime", run_at_ts := some 50 } 100 =
      some 101 := by
  have h := datetime_past_clamps_to_base_plus_one
    ⟨false, fun _ _ => CronResult.exn⟩
    { id := "x", kind := "datetime", run_at_ts := some 50 } 100 50
    rfl rfl rfl (fun lt hlt => by cases hlt) (by norm_num)
  rw [h.1]
  norm_num

/-- C4: a `datetime` reminder with `last_triggered_at` present and
`run_at ≤ last_triggered_at` yields no next occurrence, for every base
time. -/
theorem datetime_consumed_returns_none (env : CronEnv) (r : Reminder)
    (runAt lt : ℚ) (hk : r.kind = "datetime") (hra : r.run_at_ts = some runAt)
    (hlt : r.last_triggered_at = some lt) (hcons : runAt ≤ lt) :
    ∀ base : ℚ, compute_next_run env r base = none := by
  intro base
  unfold compute_next_run
  cases hen : r.enabled with
  | false => simp
  | true =>
    rw [hk]
    simp
    rw [hra, hlt]
    simp [hcons]

/-- Witness for `datetime_consumed_returns_none` at a concrete reminder
with `run_at = 50 = last_triggered_at`. -/
theorem datetime_consumed_returns_none_witness :
    compute_next_run ⟨false, fun _ _ => CronResult.exn⟩
      { id := "x", kind := "datetime", run_at_ts := some 50,
        last_triggered_at := some 50 } 100 = none :=
  datetime_consumed_returns_none ⟨false, fun _ _ => CronResult.exn⟩
    { id := "x", kind := "datetime", run_at_ts := some 50,
      last_triggered_at := some 50 } 50 50 rfl rfl rfl le_rfl 100

/-- C5: an enabled `delay` reminder with `delay_minutes = m > 0` yields
exactly `base + 60 m` seconds; with `m ≤ 0`, `delay_minutes` unset, or
the reminder disabled, it yields none. -/
theorem delay_semantics (env : CronEnv) (r : Reminder) (base : ℚ)
    (hk : r.kind = "delay") :
    (∀ m : ℤ, r.enabled = true → r.delay_minutes = some m → 0 < m →
        compute_next_run env r base = some (base + 60 * (m : ℚ))) ∧
    ((r.enabled = false ∨ r.delay_minutes = none ∨
        (∃ m : ℤ, r.delay_minutes = some m ∧ m ≤ 0)) →
      compute_next_run env r base = none) := by
  constructor
  · intro m hen hm hpos
    unfold compute_next_run
    rw [hen, hk]
    simp [hm, not_le.mpr hpos]
  · rintro (hdis | hnone | ⟨m, hm, hle⟩)
    · exact compute_next_run_of_disabled env r base hdis
    · unfold compute_next_run
      cases hen : r.enabled with
      | false => simp
      | true => rw [hk]; simp [hnone]
    · unfold compute_next_run
      cases hen : r.enabled with
      | false => simp
      | true => rw [hk]; simp [hm, hle]

/-- Witness for `delay_semantics`: `m = 5` gives `1000 + 300`; `m = 0`
gives none. -/
theorem delay_semantics_witness :
    compute_next_run ⟨false, fun _ _ => CronResult.exn⟩
      { id := "x", kind := "delay", delay_minutes := some 5 } 1000 =
      some 1300 ∧
    compute_next_run ⟨false, fun _ _ => CronResult.exn⟩
      { id := "y", kind := "delay", delay_minutes := some 0 } 1000 =
      none := by
  constructor
  · have h := (delay_semantics ⟨false, fun _ _ => CronResult.exn⟩
      { id := "x", kind := "delay", delay_minutes := some 5 } 1000 rfl).1
      5 rfl rfl (by norm_num)
    rw [h]
    norm_num
  · exact (delay_semantics ⟨false, fun _ _ => CronResult.exn⟩
      { id := "y", kind := "delay", delay_minutes := some 0 } 1000 rfl).2
      (Or.inr (Or.inr ⟨0, rfl, le_rfl⟩))

/-- C10: `compute_next_run` is total over `kind`: any kind other than
`delay`, `datetime`, `cron` yields none (final `return None`), for every
base time and regardless of `enabled`. -/
theorem unknown_kind_returns_none (env : CronEnv) (r : Reminder) (base : ℚ)
    (h1 : r.kind ≠ "delay") (h2 : r.kind ≠ "datetime") (h3 : r.kind ≠ "cron") :
    compute_next_run env r base = none := by
  unfold compute_next_run
  cases hen : r.enabled with
  | false => simp
  | true => simp [h1, h2, h3]

/-- Witness for `unknown_kind_returns_none` at kind `"weekly"`. -/
theorem unknown_kind_returns_none_witness :
    compute_next_run ⟨false, fun _ _ => CronResult.exn⟩
      { id := "x", kind := "weekly" } 0 = none :=
  unknown_kind_returns_none ⟨false, fun _ _ => CronResult.exn⟩
    { id := "x", kind := "weekly" } 0
    (by simp) (by simp) (by simp)

/-- C8: for a `cron` reminder, `compute_next_run` yields none (raising
nothing to its caller — the evaluator exception is caught) whenever the
reminder is disabled, cron support is unavailable, the expression is
empty/unset, or evaluation raises; in the raising case the exception is
logged (`compute_next_run_logs`). -/
theorem cron_errors_yield_none (env : CronEnv) (r : Reminder) (base : ℚ)
    (hk : r.kind = "cron") :
    (r.enabled = false → compute_next_run env r base = none) ∧
    (env.haveCroniter = false → compute_next_run env r base = none) ∧
    ((r.cron_expr = none ∨ r.cron_expr = some "") →
      compute_next_run env r base = none) ∧
    (∀ e, r.enabled = true → env.haveCroniter = true → r.cron_expr = some e →
      e ≠ "" → env.cronEval e base = CronResult.exn →
      compute_next_run env r base = none ∧
        compute_next_run_logs env r base = true) := by
  refine ⟨fun hdis => compute_next_run_of_disabled env r base hdis, ?_, ?_, ?_⟩
  · intro hnc
    unfold compute_next_run
    cases hen : r.enabled with
    | false => simp
    | true => rw [hk]; simp [hnc]
  · rintro (hnone | hempty)
    · unfold compute_next_run
      cases hen : r.enabled with
      | false => simp
      | true =>
        rw [hk]
        cases hc : env.haveCroniter <;> simp [hnone]
    · unfold compute_next_run
      cases hen : r.enabled with
      | false => simp
      | true =>
        rw [hk]
        cases hc : env.haveCroniter <;> simp [hempty]
  · intro e hen hc he hne hexn
    constructor
    · unfold compute_next_run
      rw [hen, hk]
      simp [hc, he, hne, hexn]
    · unfold compute_next_run_logs
      rw [hen, hk]
      simp [hc, he, hne, hexn]

/-- Witness for `cron_errors_yield_none`: a malformed expression whose
evaluation raises yields none and is logged. -/
theorem cron_errors_yield_none_witness :
    compute_next_run ⟨true, fun _ _ => CronResult.exn⟩
      { id := "x", kind := "cron", cron_expr := some "bad expr" } 0 = none ∧
    compute_next_run_logs ⟨true, fun _ _ => CronResult.exn⟩
      { id := "x", kind := "cron", cron_expr := some "bad expr" } 0 = true :=
  (cron_errors_yield_none ⟨true, fun _ _ => CronResult.exn⟩
    { id := "x", kind := "cron", cron_expr := some "bad expr" } 0 rfl).2.2.2
    "bad expr" rfl rfl rfl (by simp) rfl

/-! ### Helper lemmas about `fillLoop` -/

/-- The store after a fill: every reminder's `next_run_ts` is overwritten
with the value recomputed at the fill's base time. -/
theorem fillLoop_fst (env : CronEnv) (now : ℚ) :
    ∀ (store : List Reminder) (s : SchedState),
      (fillLoop env now store s).1 =
        store.map (fun r => { r with next_run_ts := compute_next_run env r now }) := by
  intro store
  induction store with
  | nil => intro s; rfl
  | cons r rs ih =>
    intro s
    show (let (r', s') := fillStep env now r s
          let (rs', s'') := fillLoop env now rs s'
          (r' :: rs', s'')).1 = _
    unfold fillStep
    cases h : compute_next_run env r now with
    | none => simp [h, ih]
    | some v =>
      by_cases hv : now - 1 ≤ v <;> simp [h, hv, ih]

/-- Every entry in the heap produced by `fillLoop` is either inherited
from the incoming heap or stems from a reminder of the store whose
recomputed next occurrence is the entry's timestamp. -/
theorem fillLoop_heap_source (env : CronEnv) (now : ℚ) :
    ∀ (store : List Reminder) (s : SchedState) (e : HeapEntry),
      e ∈ (fillLoop env now store s).2.heap →
      e ∈ s.heap ∨ ∃ r ∈ store, r.id = e.rid ∧
        compute_next_run env r now = some e.ts := by
  intro store
  induction store with
  | nil => intro s e he; exact Or.inl he
  | cons r rs ih =>
    intro s e he
    show e ∈ s.heap ∨ ∃ r' ∈ r :: rs, r'.id = e.rid ∧
        compute_next_run env r' now = some e.ts
    have he' : e ∈ (fillStep env now r s).2.heap ∨
        ∃ r' ∈ rs, r'.id = e.rid ∧ compute_next_run env r' now = some e.ts := by
      have := ih (fillStep env now r s).2 e
      apply this
      exact he
    rcases he' with hin | ⟨r', hr', hid, hc⟩
    · unfold fillStep at hin
      cases h : compute_next_run env r now with
      | none =>
        rw [h] at hin
        exact Or.inl hin
      | some v =>
        rw [h] at hin
        by_cases hv : now - 1 ≤ v
        · simp only [hv, if_true] at hin
          rcases List.mem_append.mp hin with hold | hnew
          · exact Or.inl hold
          · rcases List.mem_singleton.mp hnew with rfl
            exact Or.inr ⟨r, List.mem_cons_self r rs, rfl, h⟩
        · simp only [hv, if_false] at hin
          exact Or.inl hin
    · exact Or.inr ⟨r', List.mem_cons_of_mem r hr', hid, hc⟩

/-- A reminder of the store whose recomputed occurrence passes the
`nxt >= now - 1` tolerance gets an entry pushed for it. -/
theorem fillLoop_pushes (env : CronEnv) (now : ℚ) :
    ∀ (store : List Reminder) (s : SchedState) (r : Reminder) (v : ℚ),
      r ∈ store → compute_next_run env r now = some v → now - 1 ≤ v →
      ∃ e ∈ (fillLoop env now store s).2.heap, e.rid = r.id ∧ e.ts = v := by
  intro store
  induction store with
  | nil => intro s r v hr; exact absurd hr (List.not_mem_nil r)
  | cons q qs ih =>
    intro s r v hr hc hv
    show ∃ e ∈ (let (q', s') := fillStep env now q s
                let (qs', s'') := fillLoop env now qs s'
                (q' :: qs', s'')).2.heap, e.rid = r.id ∧ e.ts = v
    rcases List.mem_cons.mp hr with rfl | hmem
    · -- r is the head: fillStep pushes its entry, and fillLoop only appends
      have hpush : (⟨v, r.id, s.seq⟩ : HeapEntry) ∈ (fillStep env now r s).2.heap := by
        unfold fillStep
        rw [hc]
        simp [hv]
      -- heap grows monotonically through the rest of the loop
      have hmono : ∀ (store' : List Reminder) (s' : SchedState) (e : HeapEntry),
          e ∈ s'.heap → e ∈ (fillLoop env now store' s').2.heap := by
        intro store'
        induction store' with
        | nil => intro s' e he; exact he
        | cons p ps ihp =>
          intro s' e he
          show e ∈ (let (p', s'') := fillStep env now p s'
                    let (ps', s''') := fillLoop env now ps s''
                    (p' :: ps', s''')).2.heap
          apply ihp
          unfold fillStep
          cases h : compute_next_run env p now with
          | none => exact he
          | some w =>
            by_cases hw : now - 1 ≤ w
            · simp only [hw, if_true]
              exact List.mem_append_left _ he
            · simpa [hw] using he
      exact ⟨⟨v, r.id, s.seq⟩, hmono qs (fillStep env now r s).2 _ hpush, rfl, rfl⟩
    · exact ih (fillStep env now q s).2 r v hmem hc hv

/-! ### Claims about `_fill_heap` -/

/-- C2: on every fill, an enabled `delay` reminder with
`delay_minutes = m > 0` has its next occurrence recomputed from the
fill-time base `now`: its stored `next_run_ts` becomes `now + 60 m`
(overwriting whatever was there) and an entry with that timestamp is
pushed for it. -/
theorem fill_recomputes_delay_from_now (env : CronEnv) (now : ℚ)
    (store : List Reminder) (s : SchedState) (r : Reminder) (m : ℤ)
    (hr : r ∈ store) (hen : r.enabled = true) (hk : r.kind = "delay")
    (hm : r.delay_minutes = some m) (hpos : 0 < m) :
    { r with next_run_ts := some (now + 60 * (m : ℚ)) } ∈
      (fill_heap env now store s).1 ∧
    ∃ e ∈ (fill_heap env now store s).2.heap,
      e.rid = r.id ∧ e.ts = now + 60 * (m : ℚ) := by
  have hc : compute_next_run env r now = some (now + 60 * (m : ℚ)) := by
    unfold compute_next_run
    rw [hen, hk]
    simp [hm, not_le.mpr hpos]
  have hm1 : (1 : ℚ) ≤ (m : ℚ) := by exact_mod_cast hpos
  have htol : now - 1 ≤ now + 60 * (m : ℚ) := by linarith
  constructor
  · rw [show (fill_heap env now store s).1 = _ from fillLoop_fst env now store _]
    rw [List.mem_map]
    exact ⟨r, hr, by rw [hc]⟩
  · exact fillLoop_pushes env now store _ r _ hr hc htol

/-- Witness for `fill_recomputes_delay_from_now` on a one-reminder store
with `delay_minutes = 5`, prior `next_run_ts = 42`, filled at `now = 1000`. -/
theorem fill_recomputes_delay_from_now_witness :
    { id := "d", kind := "delay", delay_minutes := some 5,
      next_run_ts := some (1000 + 60 * ((5 : ℤ) : ℚ)) } ∈
      (fill_heap ⟨false, fun _ _ => CronResult.exn⟩ 1000
        [{ id := "d", kind := "delay", delay_minutes := some 5,
           next_run_ts := some 42 }] ⟨[⟨7, "stale", 0⟩], 3⟩).1 ∧
    ∃ e ∈ (fill_heap ⟨false, fun _ _ => CronResult.exn⟩ 1000
        [{ id := "d", kind := "delay", delay_minutes := some 5,
           next_run_ts := some 42 }] ⟨[⟨7, "stale", 0⟩], 3⟩).2.heap,
      e.rid = "d" ∧ e.ts = 1000 + 60 * ((5 : ℤ) : ℚ) :=
  fill_recomputes_delay_from_now ⟨false, fun _ _ => CronResult.exn⟩ 1000
    [{ id := "d", kind := "delay", delay_minutes := some 5,
       next_run_ts := some 42 }] ⟨[⟨7, "stale", 0⟩], 3⟩
    { id := "d", kind := "delay", delay_minutes := some 5,
      next_run_ts := some 42 } 5
    (List.mem_singleton.mpr rfl) rfl rfl rfl (by norm_num)

/-- C7: after a fill, no heap entry references a reminder that is
disabled in the store (disabled reminders compute no next occurrence,
hence nothing is pushed for them). -/
theorem disabled_reminder_not_in_heap (env : CronEnv) (now : ℚ)
    (store : List Reminder) (s : SchedState) (i : String)
    (hdis : ∀ r ∈ store, r.id = i → r.enabled = false) :
    ∀ e ∈ (fill_heap env now store s).2.heap, e.rid ≠ i := by
  intro e he hid
  rcases fillLoop_heap_source env now store _ e he with hemp | ⟨r, hr, hrid, hc⟩
  · exact absurd hemp (List.not_mem_nil e)
  · have hdis' : r.enabled = false := hdis r hr (hrid.trans hid)
    rw [compute_next_run_of_disabled env r now hdis'] at hc
    cases hc

/-- Witness for `disabled_reminder_not_in_heap`: a store holding one
disabled datetime reminder fills to a heap with no entry for it. -/
theorem disabled_reminder_not_in_heap_witness :
    (∀ r ∈ [rmOff], r.id = "off" → r.enabled = false) ∧
    (∀ e ∈ (fill_heap envNoCron 0 [rmOff] ⟨[], 0⟩).2.heap, e.rid ≠ "off") :=
  ⟨fun r hr _ => by rcases List.mem_singleton.mp hr with rfl; rfl,
   disabled_reminder_not_in_heap envNoCron 0 [rmOff] ⟨[], 0⟩ "off"
     (fun r hr _ => by rcases List.mem_singleton.mp hr with rfl; rfl)⟩

/-- Overwriting `next_run_ts` (as a fill just did) changes nothing in a
later `fillStep` of the same reminder at the same base time. -/
theorem fillStep_overwrite (env : CronEnv) (now : ℚ) (r : Reminder)
    (s : SchedState) :
    fillStep env now { r with next_run_ts := compute_next_run env r now } s =
      fillStep env now r s := rfl

/-- A second `fillLoop` pass over a store a first pass just rewrote
produces the same result as the first pass. -/
theorem fillLoop_overwrite (env : CronEnv) (now : ℚ) :
    ∀ (store : List Reminder) (s : SchedState),
      fillLoop env now
        (store.map fun r => { r with next_run_ts := compute_next_run env r now }) s =
        fillLoop env now store s := by
  intro store
  induction store with
  | nil => intro s; rfl
  | cons r rs ih =>
    intro s
    simp only [List.map_cons, fillLoop, fillStep_overwrite, ih]

/-- C9: rebuilding is idempotent.  Signalling `rebuild` twice before the
loop wakes is one flag set; and each `_fill_heap` first clears the heap
and resets the sequence counter, so a fill's result is independent of
the prior heap state and a second fill against the same store contents
and base time reproduces the first one exactly (no duplicate entries,
no double-firing). -/
theorem rebuild_and_fill_idempotent (env : CronEnv) (now : ℚ)
    (store : List Reminder) :
    (∀ ev : Bool, rebuild (rebuild ev) = rebuild ev) ∧
    (∀ s₁ s₂ : SchedState, fill_heap env now store s₁ = fill_heap env now store s₂) ∧
    (∀ s : SchedState,
      fill_heap env now (fill_heap env now store s).1 (fill_heap env now store s).2 =
        fill_heap env now store s) := by
  refine ⟨fun ev => rfl, fun s₁ s₂ => rfl, fun s => ?_⟩
  have h1 : (fill_heap env now store s).1 =
      store.map (fun r => { r with next_run_ts := compute_next_run env r now }) :=
    fillLoop_fst env now store _
  calc fill_heap env now (fill_heap env now store s).1 (fill_heap env now store s).2
      = fillLoop env now (fill_heap env now store s).1 ⟨[], 0⟩ := rfl
    _ = fillLoop env now
          (store.map fun r => { r with next_run_ts := compute_next_run env r now })
          ⟨[], 0⟩ := by rw [h1]
    _ = fillLoop env now store ⟨[], 0⟩ := fillLoop_overwrite env now store _
    _ = fill_heap env now store s := rfl

/-! ### Claim about the firing branch of `Scheduler.run` -/

/-- C6: firing an enabled reminder records `last_triggered_at = now`;
a cron reminder stays enabled, its `next_run_ts` becomes the occurrence
recomputed from the firing time, and a fresh heap entry is pushed when
that occurrence exists; every other kind is disabled with
`next_run_ts` cleared and no heap push. -/
theorem fire_step_bookkeeping (env : CronEnv) (now : ℚ) (r : Reminder)
    (s : SchedState) (hen : r.enabled = true) :
    (fireStep env now r s).1.last_triggered_at = some now ∧
    (r.kind = "cron" →
      (fireStep env now r s).1.enabled = true ∧
      (fireStep env now r s).1.next_run_ts =
        compute_next_run env { r with last_triggered_at := some now } now ∧
      (∀ v, compute_next_run env { r with last_triggered_at := some now } now = some v →
        (fireStep env now r s).2.heap = s.heap ++ [⟨v, r.id, s.seq⟩]) ∧
      (compute_next_run env { r with last_triggered_at := some now } now = none →
        (fireStep env now r s).2 = s)) ∧
    (r.kind ≠ "cron" →
      (fireStep env now r s).1.enabled = false ∧
      (fireStep env now r s).1.next_run_ts = none ∧
      (fireStep env now r s).2 = s) := by
  unfold fireStep
  by_cases hk : r.kind = "cron"
  · rw [if_pos hk]
    cases hc : compute_next_run env { r with last_triggered_at := some now } now with
    | none =>
      refine ⟨rfl, fun _ => ⟨hen, rfl, ?_, fun _ => rfl⟩, fun hne => absurd hk hne⟩
      intro v hv
      cases hv
    | some v =>
      refine ⟨rfl, fun _ => ⟨hen, rfl, ?_, ?_⟩, fun hne => absurd hk hne⟩
      · intro w hw
        cases hw
        rfl
      · intro hnone
        cases hnone
  · rw [if_neg hk]
    exact ⟨rfl, fun h => absurd h hk, fun _ => ⟨rfl, rfl, rfl⟩⟩

/-- Witness for `fire_step_bookkeeping`: firing a delay (non-cron)
reminder at time 60 disables it and clears `next_run_ts`. -/
theorem fire_step_bookkeeping_witness :
    (fireStep ⟨false, fun _ _ => CronResult.exn⟩ 60
      { id := "d", kind := "delay", delay_minutes := some 1,
        next_run_ts := some 60 } ⟨[], 0⟩).1.last_triggered_at = some 60 ∧
    (fireStep ⟨false, fun _ _ => CronResult.exn⟩ 60
      { id := "d", kind := "delay", delay_minutes := some 1,
        next_run_ts := some 60 } ⟨[], 0⟩).1.enabled = false ∧
    (fireStep ⟨false, fun _ _ => CronResult.exn⟩ 60
      { id := "d", kind := "delay", delay_minutes := some 1,
        next_run_ts := some 60 } ⟨[], 0⟩).1.next_run_ts = none := by
  have h := fire_step_bookkeeping ⟨false, fun _ _ => CronResult.exn⟩ 60
    { id := "d", kind := "delay", delay_minutes := some 1,
      next_run_ts := some 60 } ⟨[], 0⟩ rfl
  have hk : ({ id := "d", kind := "delay", delay_minutes := some 1,
               next_run_ts := some 60 } : Reminder).kind ≠ "cron" := by simp
  exact ⟨h.1, (h.2.2 hk).1, (h.2.2 hk).2.1⟩

/-! ### Claim C1: ordering among equal-timestamp heap entries -/

/-- `entryLeb a b` holds exactly for the lexicographic order on
`(ts, rid, seq)`. -/
theorem entryLeb_eq_true_iff (a b : HeapEntry) :
    entryLeb a b = true ↔
      a.ts < b.ts ∨ (a.ts = b.ts ∧
        (a.rid < b.rid ∨ (a.rid = b.rid ∧ a.seq ≤ b.seq))) := by
  unfold entryLeb
  split_ifs with h1 h2 h3 h4
  · exact ⟨fun _ => Or.inl h1, fun _ => rfl⟩
  · constructor
    · intro hf; cases hf
    · rintro (h | ⟨he, _⟩)
      · exact absurd h (lt_asymm h2)
      · exact absurd h2 (by rw [he]; exact lt_irrefl _)
  · have ha : a.ts = b.ts := le_antisymm (not_lt.mp h2) (not_lt.mp h1)
    exact ⟨fun _ => Or.inr ⟨ha, Or.inl h3⟩, fun _ => rfl⟩
  · constructor
    · intro hf; cases hf
    · rintro (h | ⟨he, (h | ⟨he', _⟩)⟩)
      · exact absurd h h1
      · exact absurd h (lt_asymm h4)
      · exact absurd h4 (by rw [he']; exact lt_irrefl _)
  · have ha : a.ts = b.ts := le_antisymm (not_lt.mp h2) (not_lt.mp h1)
    have hr : a.rid = b.rid := le_antisymm (not_lt.mp h4) (not_lt.mp h3)
    simp only [decide_eq_true_eq]
    constructor
    · intro hs; exact Or.inr ⟨ha, Or.inr ⟨hr, hs⟩⟩
    · rintro (h | ⟨_, (h | ⟨_, hs⟩)⟩)
      · exact absurd h h1
      · exact absurd h h3
      · exact hs

/-- `entryLeb` is reflexive. -/
theorem entryLeb_refl (a : HeapEntry) : entryLeb a a = true :=
  (entryLeb_eq_true_iff a a).mpr (Or.inr ⟨rfl, Or.inr ⟨rfl, le_rfl⟩⟩)

/-- `entryLeb` is total. -/
theorem entryLeb_total (a b : HeapEntry) (h : entryLeb a b = false) :
    entryLeb b a = true := by
  apply (entryLeb_eq_true_iff b a).mpr
  have hnot : ¬ (a.ts < b.ts ∨ (a.ts = b.ts ∧
      (a.rid < b.rid ∨ (a.rid = b.rid ∧ a.seq ≤ b.seq)))) := by
    intro hp
    rw [(entryLeb_eq_true_iff a b).mpr hp] at h
    cases h
  push_neg at hnot
  obtain ⟨hts, hrest⟩ := hnot
  rcases lt_trichotomy a.ts b.ts with h1 | h1 | h1
  · exact absurd h1 (not_lt.mpr hts)
  · obtain ⟨hrid, hseq⟩ := hrest h1
    rcases lt_trichotomy a.rid b.rid with h2 | h2 | h2
    · exact absurd h2 (not_lt.mpr hrid)
    · exact Or.inr ⟨h1.symm, Or.inr ⟨h2.symm, le_of_lt (hseq h2)⟩⟩
    · exact Or.inr ⟨h1.symm, Or.inl h2⟩
  · exact Or.inl h1

/-- `entryLeb` is transitive. -/
theorem entryLeb_trans (a b c : HeapEntry) (hab : entryLeb a b = true)
    (hbc : entryLeb b c = true) : entryLeb a c = true := by
  rw [entryLeb_eq_true_iff] at hab hbc ⊢
  rcases hab with h1 | ⟨e1, r1⟩
  · rcases hbc with h2 | ⟨e2, _⟩
    · exact Or.inl (lt_trans h1 h2)
    · exact Or.inl (e2 ▸ h1)
  · rcases hbc with h2 | ⟨e2, r2⟩
    · exact Or.inl (e1 ▸ h2)
    · refine Or.inr ⟨e1.trans e2, ?_⟩
      rcases r1 with h3 | ⟨f1, s1⟩
      · rcases r2 with h4 | ⟨f2, _⟩
        · exact Or.inl (lt_trans h3 h4)
        · exact Or.inl (f2 ▸ h3)
      · rcases r2 with h4 | ⟨f2, s2⟩
        · exact Or.inl (f1 ▸ h4)
        · exact Or.inr ⟨f1.trans f2, le_trans s1 s2⟩

/-- The fold inside `popMin` returns a lower bound of its inputs. -/
theorem foldMin_spec (l : List HeapEntry) : ∀ a : HeapEntry,
    entryLeb (l.foldl (fun x y => if entryLeb x y then x else y) a) a = true ∧
    ∀ x ∈ l, entryLeb (l.foldl (fun x y => if entryLeb x y then x else y) a) x = true := by
  induction l with
  | nil =>
    intro a
    exact ⟨entryLeb_refl a, fun x hx => absurd hx (List.not_mem_nil x)⟩
  | cons b l ih =>
    intro a
    rw [List.foldl_cons]
    obtain ⟨hma, hml⟩ := ih (if entryLeb a b then a else b)
    by_cases hab : entryLeb a b = true
    · rw [if_pos hab] at hma hml ⊢
      refine ⟨hma, fun x hx => ?_⟩
      rcases List.mem_cons.mp hx with rfl | hx'
      · exact entryLeb_trans _ _ _ hma hab
      · exact hml x hx'
    · have hba := entryLeb_total a b (Bool.not_eq_true _ ▸ hab)
      rw [if_neg hab] at hma hml ⊢
      refine ⟨entryLeb_trans _ _ _ hma hba, fun x hx => ?_⟩
      rcases List.mem_cons.mp hx with rfl | hx'
      · exact hma
      · exact hml x hx'

/-- What `heappop` returns is `entryLeb`-below every heap entry. -/
theorem popMin_le (l : List HeapEntry) (m : HeapEntry) (h : popMin l = some m) :
    ∀ x ∈ l, entryLeb m x = true := by
  cases l with
  | nil => cases h
  | cons e es =>
    unfold popMin at h
    injection h with h
    intro x hx
    rcases List.mem_cons.mp hx with rfl | hx'
    · exact h ▸ (foldMin_spec es x).1
    · exact h ▸ (foldMin_spec es e).2 x hx'

/-- C1 (amended): among equal-timestamp entries of a filled heap, the
pop order is decided by the lexicographic comparison of the pushed
tuples, that is by the reminder id string first and by the insertion
sequence number only between entries whose id also coincides: an entry
that is strictly smaller in the (id, seq) order is never out-popped. -/
theorem heap_equal_ts_pops_smaller_id_first (env : CronEnv) (now : ℚ)
    (store : List Reminder) (s : SchedState) (e₁ e₂ : HeapEntry)
    (h1 : e₁ ∈ (fill_heap env now store s).2.heap)
    (_h2 : e₂ ∈ (fill_heap env now store s).2.heap)
    (hts : e₁.ts = e₂.ts)
    (hlt : e₁.rid < e₂.rid ∨ (e₁.rid = e₂.rid ∧ e₁.seq < e₂.seq)) :
    popMin (fill_heap env now store s).2.heap ≠ some e₂ := by
  intro hpop
  have hle := popMin_le _ _ hpop e₁ h1
  rw [entryLeb_eq_true_iff] at hle
  rcases hle with h | ⟨he, hr⟩
  · rw [hts] at h
    exact absurd h (lt_irrefl _)
  · rcases hlt with hid | ⟨hid, hseq⟩
    · rcases hr with h | ⟨hf, _⟩
      · exact absurd (lt_trans h hid) (lt_irrefl _)
      · rw [hf] at hid
        exact absurd hid (lt_irrefl _)
    · rcases hr with h | ⟨hf, hs⟩
      · rw [hid] at h
        exact absurd h (lt_irrefl _)
      · omega

/-- Witness for `heap_equal_ts_pops_smaller_id_first` on a two-reminder
fill producing equal timestamps: the entry with id `"b"` (pushed first)
is not the first pop. -/
theorem heap_equal_ts_pops_smaller_id_first_witness :
    popMin (fill_heap envNoCron 0 [rmB, rmA] ⟨[], 0⟩).2.heap ≠
      some ⟨100, "b", 0⟩ := by
  have hB : compute_next_run envNoCron rmB 0 = some 100 := rfl
  have hA : compute_next_run envNoCron rmA 0 = some 100 := rfl
  have hheap : (fill_heap envNoCron 0 [rmB, rmA] ⟨[], 0⟩).2.heap =
      [⟨100, "b", 0⟩, ⟨100, "a", 1⟩] := by
    simp only [fill_heap, fillLoop, fillStep, hB, hA]
    norm_num [rmB, rmA]
  apply heap_equal_ts_pops_smaller_id_first envNoCron 0 [rmB, rmA] ⟨[], 0⟩
    ⟨100, "a", 1⟩ ⟨100, "b", 0⟩
  · rw [hheap]
    simp
  · rw [hheap]
    simp
  · rfl
  · left
    show ("a" : String) < "b"
    simp [String.lt_iff]
    decide

/-- C1 is false as stated: filling from the store `[rmB, rmA]` (both
enabled, equal next occurrence 100), the reminder with id `"b"` is
pushed first (sequence 0), yet the first pop is the later-pushed entry
`("a", sequence 1)` — the heap tuple compares the id string before the
sequence number, so earlier insertion does not imply firing first. -/
theorem heap_tiebreak_counterexample :
    (fill_heap envNoCron 0 [rmB, rmA] ⟨[], 0⟩).2.heap =
      [⟨100, "b", 0⟩, ⟨100, "a", 1⟩] ∧
    popMin (fill_heap envNoCron 0 [rmB, rmA] ⟨[], 0⟩).2.heap =
      some ⟨100, "a", 1⟩ := by
  have hB : compute_next_run envNoCron rmB 0 = some 100 := rfl
  have hA : compute_next_run envNoCron rmA 0 = some 100 := rfl
  have hheap : (fill_heap envNoCron 0 [rmB, rmA] ⟨[], 0⟩).2.heap =
      [⟨100, "b", 0⟩, ⟨100, "a", 1⟩] := by
    simp only [fill_heap, fillLoop, fillStep, hB, hA]
    norm_num [rmB, rmA]
  refine ⟨hheap, ?_⟩
  rw [hheap]
  simp [popMin, entryLeb]
  decide

end ReminderApp
